import Mathlib

/-!
Verification of the `blockies` classic icon generator (`src/classic.rs`).

The generator state (`Seed`) holds an `f64`; floating-point values are
modelled over `ℝ` with `Real.sin` standing for `f64::sin`.  The byte seed is
a `List Nat` whose members are below 256.  The external collaborators
(`pixelate`'s renderer and the `hsl` crate's HSL→RGB conversion) are
abstracted as function parameters; `crate::util::create_image_data`, whose
source file is not part of the sources here, is modelled from the spec.
-/

namespace Blockies

/-- RGB color triple (`pixelate::Color` as the spec describes it: three
8-bit channel values). -/
structure Color where
  r : Nat
  g : Nat
  b : Nat
deriving DecidableEq

/-- Modelled from the spec: `pixelate::WHITE`, the fixed default background
color ("opaque white"). -/
def WHITE : Color := ⟨255, 255, 255⟩

/-- HSL triple (`hsl::HSL`, `f64` fields modelled over `ℝ`). -/
structure HSL where
  h : ℝ
  s : ℝ
  l : ℝ

/-- Generator state: `pub struct Seed { randseed: f64 }`. -/
structure Seed where
  randseed : ℝ

/-- The chunking loop of `Seed::new`:
`for i in 0..seed.len() / 2 { let h = ((seed[i*2] as u64) << 8) | seed[i*2+1] as u64; randseed = randseed ^ h; }`. -/
def seedFold (seed : List Nat) : Nat :=
  (List.range (seed.length / 2)).foldl
    (fun acc i => acc ^^^ ((seed.getD (2 * i) 0 <<< 8) ||| seed.getD (2 * i + 1) 0)) 0

/-- The integer accumulator produced by `Seed::new`, including the
odd-length trailing-byte branch
`if seed.len() % 2 == 1 { randseed = randseed ^ ((seed[seed.len()-1] as u64) << 8); }`. -/
def seedInitNat (seed : List Nat) : Nat :=
  if seed.length % 2 = 1 then
    seedFold seed ^^^ (seed.getD (seed.length - 1) 0 <<< 8)
  else
    seedFold seed

/-- Embedding of `Seed::new`: the accumulator is converted to the floating-point state
(`randseed as f64`; exact for values below `2^53`). -/
noncomputable def Seed.new (seed : List Nat) : Seed :=
  ⟨(seedInitNat seed : ℝ)⟩

/-- Embedding of `Seed::rand`: `n = (sin(randseed)+1)/2; randseed += 1.0; r = n*10000.0; r - r.floor()`.
Returns the drawn value together with the updated state. -/
noncomputable def Seed.rand (s : Seed) : ℝ × Seed :=
  let n := (Real.sin s.randseed + 1) / 2
  let s' : Seed := ⟨s.randseed + 1⟩
  let r := n * 10000
  (r - ⌊r⌋, s')

/-- State advance of one draw. -/
noncomputable def Seed.step (s : Seed) : Seed := s.rand.2

/-- The value of the `k`-th draw (0-based) from state `s`. -/
noncomputable def drawSeq (s : Seed) (k : Nat) : ℝ := ((Seed.step)^[k] s).rand.1

/-- Embedding of `Seed::create_color`: three draws in the fixed order hue, saturation,
lightness, passed to the HSL→RGB conversion (abstracted as `f`, since
`hsl_to_rgb` wraps the external `hsl` crate). -/
noncomputable def Seed.create_color (f : HSL → Color) (s : Seed) : Color × Seed :=
  let p1 := s.rand
  let p2 := p1.2.rand
  let p3 := p2.2.rand
  (f ⟨(⌊p1.1 * 360⌋ : ℝ), (p2.1 * 50 + 50) / 100, (p3.1 * 60 + 20) / 100⟩, p3.2)

/-- The closure `|| seed.rand() >= 0.5` passed to `create_image_data`. -/
noncomputable def randBool (s : Seed) : Bool × Seed :=
  (decide (s.rand.1 ≥ 0.5), s.rand.2)

/-- Draw `n` booleans in sequence from a stateful draw source. -/
def drawN {σ : Type} (draw : σ → Bool × σ) : Nat → σ → List Bool × σ
  | 0, s => ([], s)
  | n + 1, s =>
    let p := draw s
    let q := drawN draw n p.2
    (p.1 :: q.1, q.2)

/-- Modelled from the spec: one row built by `crate::util::create_image_data`
(whose source file `util.rs` is not under the given sources).  Spec §4.3:
"for each column index from 0 up to half the effective width (exclusive,
using ceiling division), draw one boolean and assign it to both that column
and its mirror column (`width - 1 - column`)". -/
def mkRow {σ : Type} (draw : σ → Bool × σ) (width : Nat) (s : σ) :
    List Bool × σ :=
  let p := drawN draw ((width + 1) / 2) s
  (p.1 ++ (p.1.take (width - (width + 1) / 2)).reverse, p.2)

/-- Modelled from the spec: the rows of `create_image_data`, built
top-to-bottom. -/
def mkRows {σ : Type} (draw : σ → Bool × σ) (width : Nat) :
    Nat → σ → List (List Bool) × σ
  | 0, s => ([], s)
  | n + 1, s =>
    let p := mkRow draw width s
    let q := mkRows draw width n p.2
    (p.1 :: q.1, q.2)

/-- Effective width: `size + size % 2` (the `width` field of the `Image`
handed to the renderer in `Classic::create_icon`). -/
def effWidth (size : Nat) : Nat := size + size % 2

/-- Modelled from the spec: `crate::util::create_image_data(size, draw)`.
Spec §4.3: effective width is `size` rounded up to the next even number,
height is the original `size`, rows are built top-to-bottom and mirrored
left-right; the grid is returned together with the final draw-source
state. -/
def create_image_data {σ : Type} (draw : σ → Bool × σ) (size : Nat)
    (s : σ) : List (List Bool) × σ :=
  mkRows draw (effWidth size) size s

/-- Configuration struct `Classic` (`size`, `scale`, optional fixed
foreground and background colors). -/
structure Classic where
  size : Nat
  scale : Nat
  color : Option Color
  background_color : Option Color

/-- Embedding of `Classic::default()`. -/
def Classic.default : Classic :=
  ⟨8, 16, Option.none, Option.none⟩

/-- The `pixelate::Image` record handed to the external renderer. -/
structure Image where
  palette : List Color
  pixels : List Nat
  width : Nat
  scale : Nat

/-- Flatten the boolean grid to the 0/1 palette-index buffer, row-major. -/
def toPixels (rows : List (List Bool)) : List Nat :=
  rows.flatten.map (fun b => if b then 1 else 0)

/-- Embedding of `Classic::create_icon`: build the seed state, resolve foreground color
(derived only when no fixed color is supplied — `unwrap_or_else` is lazy),
resolve background color, build the pixel grid from the same seed state, and
hand the assembled `Image` to the external renderer (abstracted as
`render`; its `Result` is returned unchanged). -/
noncomputable def create_icon {Err Out : Type} (f : HSL → Color)
    (render : Image → Except Err Out) (cfg : Classic) (seed : List Nat) :
    Except Err Out :=
  let s0 := Seed.new seed
  let pc : Color × Seed :=
    match cfg.color with
    | some c => (c, s0)
    | none => s0.create_color f
  let background_color := cfg.background_color.getD WHITE
  let palette := [background_color, pc.1]
  let pixels := toPixels (create_image_data randBool cfg.size pc.2).1
  render
    { palette := palette
      pixels := pixels
      width := cfg.size + cfg.size % 2
      scale := cfg.scale }

/-! ### Helper lemmas: the seed accumulator -/

/-- The spec's description of `Seed::new`, written structurally:
consecutive two-byte big-endian chunks XOR-accumulated, a lone trailing
byte contributing its value shifted left 8 bits. -/
def seedChunks : List Nat → Nat
  | [] => 0
  | [a] => a <<< 8
  | a :: b :: l => ((a <<< 8) ||| b) ^^^ seedChunks l

lemma foldl_xor_shift (f : Nat → Nat) :
    ∀ (L : List Nat) (init : Nat),
      L.foldl (fun acc i => acc ^^^ f i) init
        = init ^^^ L.foldl (fun acc i => acc ^^^ f i) 0
  | [], init => by simp
  | a :: L, init => by
    simp only [List.foldl_cons]
    rw [foldl_xor_shift f L (init ^^^ f a), foldl_xor_shift f L (0 ^^^ f a)]
    simp [Nat.xor_assoc]

lemma seedFold_cons_cons (a b : Nat) (l : List Nat) :
    seedFold (a :: b :: l) = ((a <<< 8) ||| b) ^^^ seedFold l := by
  unfold seedFold
  have hlen : (a :: b :: l).length / 2 = l.length / 2 + 1 := by
    simp only [List.length_cons]; omega
  rw [hlen, List.range_succ_eq_map, List.foldl_cons, List.foldl_map]
  have hfun : ∀ (acc : Nat), ∀ i ∈ List.range (l.length / 2),
      (fun (acc i : Nat) =>
          acc ^^^ (((a :: b :: l).getD (2 * i) 0 <<< 8) |||
            (a :: b :: l).getD (2 * i + 1) 0)) acc (Nat.succ i)
        = (fun (acc i : Nat) =>
            acc ^^^ ((l.getD (2 * i) 0 <<< 8) ||| l.getD (2 * i + 1) 0)) acc i := by
    intro acc i _
    have h1 : 2 * Nat.succ i = 2 * i + 1 + 1 := by omega
    have h2 : 2 * Nat.succ i + 1 = 2 * i + 1 + 1 + 1 := by omega
    simp only [h1, h2, List.getD_cons_succ]
  rw [List.foldl_ext _ _ _ hfun, foldl_xor_shift]
  simp [seedFold]

lemma getD_cons_cons_last (a b : Nat) (l : List Nat) (h : 1 ≤ l.length) :
    (a :: b :: l).getD ((a :: b :: l).length - 1) 0
      = l.getD (l.length - 1) 0 := by
  simp only [List.length_cons]
  have h1 : l.length + 1 + 1 - 1 = l.length - 1 + 1 + 1 := by omega
  rw [h1, List.getD_cons_succ, List.getD_cons_succ]

lemma seedInitNat_eq_chunks (l : List Nat) : seedInitNat l = seedChunks l := by
  induction l using seedChunks.induct with
  | case1 => decide
  | case2 a => simp [seedInitNat, seedFold, seedChunks]
  | case3 a b l ih =>
    rw [seedChunks, ← ih]
    by_cases h : l.length % 2 = 1
    · have hmod : (a :: b :: l).length % 2 = 1 := by
        simp only [List.length_cons]; omega
      rw [seedInitNat, if_pos hmod, seedInitNat, if_pos h,
        seedFold_cons_cons, getD_cons_cons_last a b l (by omega),
        Nat.xor_assoc]
    · have hmod : ¬(a :: b :: l).length % 2 = 1 := by
        simp only [List.length_cons]; omega
      rw [seedInitNat, if_neg hmod, seedInitNat, if_neg h, seedFold_cons_cons]

/-! ### Helper lemmas: the grid builder -/

lemma drawN_length {σ : Type} (draw : σ → Bool × σ) :
    ∀ (n : Nat) (s : σ), (drawN draw n s).1.length = n
  | 0, _ => rfl
  | n + 1, s => by simp [drawN, drawN_length draw n]

lemma mkRow_palindrome {σ : Type} (draw : σ → Bool × σ) (width : Nat)
    (hw : width % 2 = 0) (s : σ) :
    (mkRow draw width s).1.reverse = (mkRow draw width s).1
      ∧ (mkRow draw width s).1.length = width := by
  unfold mkRow
  have hlen : (drawN draw ((width + 1) / 2) s).1.length = (width + 1) / 2 :=
    drawN_length draw _ s
  have htk : (drawN draw ((width + 1) / 2) s).1.take (width - (width + 1) / 2)
      = (drawN draw ((width + 1) / 2) s).1 := by
    apply List.take_of_length_le
    omega
  constructor
  · simp [htk, List.reverse_append]
  · simp only [List.length_append, List.length_reverse, htk, hlen]
    omega

lemma mkRows_mem {σ : Type} (draw : σ → Bool × σ) (width : Nat)
    (hw : width % 2 = 0) :
    ∀ (n : Nat) (s : σ), ∀ row ∈ (mkRows draw width n s).1,
      row.reverse = row ∧ row.length = width
  | 0, _, row, h => by simp [mkRows] at h
  | n + 1, s, row, h => by
    simp only [mkRows, List.mem_cons] at h
    rcases h with h | h
    · subst h; exact mkRow_palindrome draw width hw _
    · exact mkRows_mem draw width hw n _ row h

lemma mkRows_length {σ : Type} (draw : σ → Bool × σ) (width : Nat) :
    ∀ (n : Nat) (s : σ), (mkRows draw width n s).1.length = n
  | 0, _ => rfl
  | n + 1, s => by simp [mkRows, mkRows_length draw width n]

lemma palindrome_getD (l : List Bool) (hpal : l.reverse = l) (c : Nat)
    (hc : c < l.length) :
    l.getD c false = l.getD (l.length - 1 - c) false := by
  have hc2 : l.length - 1 - c < l.length := by omega
  rw [List.getD_eq_getElem l false hc, List.getD_eq_getElem l false hc2,
    List.getElem_of_eq hpal.symm hc]
  simp

lemma toPixels_mkRows_length {σ : Type} (draw : σ → Bool × σ) (width : Nat)
    (hw : width % 2 = 0) :
    ∀ (n : Nat) (s : σ), (toPixels (mkRows draw width n s).1).length = n * width
  | 0, _ => by simp [mkRows, toPixels]
  | n + 1, s => by
    have hrow := (mkRow_palindrome draw width hw s).2
    have ih := toPixels_mkRows_length draw width hw n (mkRow draw width s).2
    simp only [mkRows, toPixels, List.flatten_cons, List.map_append,
      List.length_append, List.length_map] at *
    rw [hrow, ih]
    ring

/-! ### Helper lemmas: the draw sequence -/

lemma rand_eq_fract (s : Seed) :
    s.rand.1 = Int.fract ((Real.sin s.randseed + 1) / 2 * 10000) := rfl

lemma rand_nonneg (s : Seed) : 0 ≤ s.rand.1 := by
  rw [rand_eq_fract]; exact Int.fract_nonneg _

lemma rand_lt_one (s : Seed) : s.rand.1 < 1 := by
  rw [rand_eq_fract]; exact Int.fract_lt_one _

lemma rand_state (s : Seed) : s.rand.2 = ⟨s.randseed + 1⟩ := rfl

lemma drawSeq_zero (s : Seed) : drawSeq s 0 = s.rand.1 := rfl

lemma drawSeq_succ (s : Seed) (k : Nat) :
    drawSeq s (k + 1) = drawSeq s.rand.2 k := by
  simp [drawSeq, Seed.step, Function.iterate_succ_apply]

lemma drawSeq_nonneg (s : Seed) (k : Nat) : 0 ≤ drawSeq s k :=
  rand_nonneg _

lemma drawSeq_lt_one (s : Seed) (k : Nat) : drawSeq s k < 1 :=
  rand_lt_one _

lemma create_color_state (f : HSL → Color) (s : Seed) :
    (s.create_color f).2 = ⟨s.randseed + 3⟩ := by
  show s.rand.2.rand.2.rand.2 = _
  simp only [rand_state]
  congr 1
  ring

/-! ### Helper lemmas: seed bounds and trailing bytes -/

lemma seedChunks_lt (l : List Nat) (hbytes : ∀ b ∈ l, b < 256) :
    seedChunks l < 2 ^ 16 := by
  induction l using seedChunks.induct with
  | case1 => norm_num [seedChunks]
  | case2 a =>
    have ha : a < 256 := hbytes a (by simp)
    rw [seedChunks, Nat.shiftLeft_eq]
    norm_num
    omega
  | case3 a b l ih =>
    have ha : a < 256 := hbytes a (by simp)
    have hb : b < 256 := hbytes b (by simp)
    rw [seedChunks]
    apply Nat.xor_lt_two_pow
    · apply Nat.or_lt_two_pow
      · rw [Nat.shiftLeft_eq]; norm_num; omega
      · norm_num; omega
    · exact ih (fun x hx => hbytes x (by simp [hx]))

lemma seedChunks_append_even (b : Nat) :
    ∀ (l : List Nat), l.length % 2 = 0 →
      seedChunks (l ++ [b]) = seedChunks l ^^^ (b <<< 8)
  | [], _ => by simp [seedChunks]
  | [a], h => by simp at h
  | a :: a2 :: l, h => by
    have hl : l.length % 2 = 0 := by
      simp only [List.length_cons] at h; omega
    simp only [List.cons_append, seedChunks, List.append_eq,
      seedChunks_append_even b l hl, Nat.xor_assoc]

lemma xor_shift_ne (x b : Nat) (hb : b ≠ 0) : x ^^^ (b <<< 8) ≠ x := by
  intro h
  have hb8 : b <<< 8 ≠ 0 := by
    rw [Nat.shiftLeft_eq]
    positivity
  apply hb8
  calc b <<< 8 = (x ^^^ x) ^^^ (b <<< 8) := by rw [Nat.xor_self, Nat.zero_xor]
    _ = x ^^^ (x ^^^ (b <<< 8)) := by rw [Nat.xor_assoc]
    _ = x ^^^ (b <<< 8) ^^^ x := by rw [Nat.xor_comm x (x ^^^ b <<< 8)]
    _ = x ^^^ x := by rw [h]
    _ = 0 := Nat.xor_self x

/-! ### Helper lemmas: the cosine of 1 is irrational -/

lemma cos_one_series :
    HasSum (fun n : ℕ => (-1 : ℝ) ^ n / Nat.factorial (2 * n)) (Real.cos 1) := by
  have h := Real.hasSum_cos 1
  simpa using h

lemma factorial_tail_bound (M : ℕ) :
    ∀ n : ℕ, Nat.factorial (2 * M) * 2 ^ n ≤ Nat.factorial (2 * (n + M))
  | 0 => by simp
  | n + 1 => by
    have ih := factorial_tail_bound M n
    have h1 : 2 * (n + 1 + M) = 2 * (n + M) + 1 + 1 := by ring
    rw [h1, Nat.factorial_succ, Nat.factorial_succ]
    calc Nat.factorial (2 * M) * 2 ^ (n + 1)
        = 2 * (Nat.factorial (2 * M) * 2 ^ n) := by ring
      _ ≤ 2 * Nat.factorial (2 * (n + M)) := by omega
      _ ≤ (2 * (n + M) + 1 + 1) * ((2 * (n + M) + 1) * Nat.factorial (2 * (n + M))) := by
          have hstep : 2 * (1 * Nat.factorial (2 * (n + M)))
              ≤ (2 * (n + M) + 1 + 1) * ((2 * (n + M) + 1) * Nat.factorial (2 * (n + M))) :=
            Nat.mul_le_mul (by omega) (Nat.mul_le_mul (by omega) (le_refl _))
          linarith

lemma abs_cos_tail_le (M : ℕ) (T : ℝ)
    (hT : HasSum (fun n : ℕ => (-1 : ℝ) ^ (n + M) / Nat.factorial (2 * (n + M))) T) :
    |T| ≤ 2 / Nat.factorial (2 * M) := by
  have hnorm : ∀ n : ℕ,
      ‖(-1 : ℝ) ^ (n + M) / Nat.factorial (2 * (n + M))‖
        ≤ 1 / Nat.factorial (2 * M) * (1 / 2) ^ n := by
    intro n
    have h1 : ‖(-1 : ℝ) ^ (n + M) / Nat.factorial (2 * (n + M))‖
        = 1 / Nat.factorial (2 * (n + M)) := by
      rw [norm_div, norm_pow, norm_neg, norm_one, one_pow, Real.norm_eq_abs,
        abs_of_nonneg (by positivity : (0 : ℝ) ≤ (Nat.factorial (2 * (n + M)) : ℝ))]
    have h2 : (1 : ℝ) / Nat.factorial (2 * M) * (1 / 2) ^ n
        = 1 / (Nat.factorial (2 * M) * 2 ^ n) := by
      rw [div_pow, one_pow, div_mul_div_comm, one_mul]
    rw [h1, h2]
    apply one_div_le_one_div_of_le (by positivity)
    exact_mod_cast factorial_tail_bound M n
  have hgeo : HasSum (fun n : ℕ => 1 / (Nat.factorial (2 * M) : ℝ) * (1 / 2) ^ n)
      (1 / Nat.factorial (2 * M) * 2) := by
    have h := hasSum_geometric_of_lt_one (by norm_num : (0 : ℝ) ≤ 1 / 2)
      (by norm_num : (1 : ℝ) / 2 < 1)
    have h2 : ((1 : ℝ) - 1 / 2)⁻¹ = 2 := by norm_num
    rw [h2] at h
    exact h.mul_left _
  have hsummable : Summable fun n : ℕ =>
      ‖(-1 : ℝ) ^ (n + M) / Nat.factorial (2 * (n + M))‖ :=
    Summable.of_nonneg_of_le (fun n => norm_nonneg _) hnorm hgeo.summable
  have h1 : |T| ≤ tsum (fun n : ℕ => ‖(-1 : ℝ) ^ (n + M) / Nat.factorial (2 * (n + M))‖) := by
    rw [← hT.tsum_eq]
    exact norm_tsum_le_tsum_norm hsummable
  have h2 : tsum (fun n : ℕ => ‖(-1 : ℝ) ^ (n + M) / Nat.factorial (2 * (n + M))‖)
      ≤ 1 / Nat.factorial (2 * M) * 2 := by
    rw [← hgeo.tsum_eq]
    exact tsum_le_tsum hnorm hsummable hgeo.summable
  calc |T| ≤ 1 / Nat.factorial (2 * M) * 2 := le_trans h1 h2
    _ = 2 / Nat.factorial (2 * M) := by ring

lemma cos_tail_ne_zero (M : ℕ) (hM : 1 ≤ M) (T : ℝ)
    (hT : HasSum (fun n : ℕ => (-1 : ℝ) ^ (n + M) / Nat.factorial (2 * (n + M))) T) :
    T ≠ 0 := by
  have hsplit : HasSum
      (fun n : ℕ => (-1 : ℝ) ^ (n + (M + 1)) / Nat.factorial (2 * (n + (M + 1))))
      (T - (-1 : ℝ) ^ M / Nat.factorial (2 * M)) := by
    have h := (hasSum_nat_add_iff' 1).mpr hT
    simp only [Finset.range_one, Finset.sum_singleton] at h
    have heq : (fun n : ℕ => (-1 : ℝ) ^ (n + 1 + M) / Nat.factorial (2 * (n + 1 + M)))
        = fun n : ℕ => (-1 : ℝ) ^ (n + (M + 1)) / Nat.factorial (2 * (n + (M + 1))) := by
      funext n
      have h3 : n + 1 + M = n + (M + 1) := by ring
      rw [h3]
    rw [heq] at h
    simpa using h
  have htail2 := abs_cos_tail_le (M + 1) _ hsplit
  have hfM : |(-1 : ℝ) ^ M / Nat.factorial (2 * M)| = 1 / Nat.factorial (2 * M) := by
    rw [abs_div, abs_pow, abs_neg, abs_one, one_pow,
      abs_of_nonneg (by positivity : (0 : ℝ) ≤ (Nat.factorial (2 * M) : ℝ))]
  have hlt : 2 / (Nat.factorial (2 * (M + 1)) : ℝ) < 1 / Nat.factorial (2 * M) := by
    rw [div_lt_div_iff₀ (by positivity) (by positivity)]
    have hnat : 2 * Nat.factorial (2 * M) < Nat.factorial (2 * (M + 1)) := by
      have h1 : 2 * (M + 1) = 2 * M + 1 + 1 := by ring
      rw [h1, Nat.factorial_succ, Nat.factorial_succ]
      have hF : 1 ≤ Nat.factorial (2 * M) := Nat.factorial_pos _
      have hstep : 4 * (3 * Nat.factorial (2 * M))
          ≤ (2 * M + 1 + 1) * ((2 * M + 1) * Nat.factorial (2 * M)) :=
        Nat.mul_le_mul (by omega) (Nat.mul_le_mul (by omega) (le_refl _))
      linarith
    have hcast : (2 : ℝ) * Nat.factorial (2 * M)
        < (Nat.factorial (2 * (M + 1)) : ℝ) := by exact_mod_cast hnat
    linarith
  intro h0
  rw [h0] at htail2
  rw [zero_sub, abs_neg, hfM] at htail2
  linarith

lemma irrational_cos_one : Irrational (Real.cos 1) := by
  rintro ⟨q, hq⟩
  set N : ℕ := q.den with hN
  have hN1 : 1 ≤ N := q.den_pos
  set f : ℕ → ℝ := fun n => (-1 : ℝ) ^ n / Nat.factorial (2 * n) with hf
  have hcos : HasSum f (Real.cos 1) := cos_one_series
  set A : ℝ := ∑ i ∈ Finset.range (N + 1), f i with hA
  have hT : HasSum (fun n : ℕ => f (n + (N + 1))) (Real.cos 1 - A) :=
    (hasSum_nat_add_iff' (N + 1)).mpr hcos
  have hTbound : |Real.cos 1 - A| ≤ 2 / Nat.factorial (2 * (N + 1)) :=
    abs_cos_tail_le (N + 1) _ hT
  have hTne : Real.cos 1 - A ≠ 0 := cos_tail_ne_zero (N + 1) (by omega) _ hT
  set zA : ℤ := ∑ i ∈ Finset.range (N + 1),
    (-1 : ℤ) ^ i * (Nat.factorial (2 * N) / Nat.factorial (2 * i) : ℕ) with hzA
  have hAint : (Nat.factorial (2 * N) : ℝ) * A = (zA : ℝ) := by
    rw [hA, hzA, Finset.mul_sum, Int.cast_sum]
    apply Finset.sum_congr rfl
    intro i hi
    have hiN : i ≤ N := by
      have := Finset.mem_range.mp hi; omega
    have hdvd : Nat.factorial (2 * i) ∣ Nat.factorial (2 * N) :=
      Nat.factorial_dvd_factorial (by omega)
    have hne : (Nat.factorial (2 * i) : ℝ) ≠ 0 := by positivity
    rw [hf]
    push_cast [Nat.cast_div hdvd hne]
    field_simp
    ring
  have hdvdq : (q.den : ℤ) ∣ (Nat.factorial (2 * N) : ℤ) := by
    exact_mod_cast Int.natCast_dvd_natCast.mpr
      (Nat.dvd_factorial q.den_pos (by omega))
  obtain ⟨t, ht⟩ := hdvdq
  have hCint : (Nat.factorial (2 * N) : ℝ) * Real.cos 1 = ((t * q.num : ℤ) : ℝ) := by
    rw [← hq]
    have hqden : ((q.den : ℝ)) ≠ 0 := by
      exact_mod_cast q.den_ne_zero
    have hnum : (q : ℝ) = (q.num : ℝ) / (q.den : ℝ) := Rat.cast_def q
    have ht' : ((Nat.factorial (2 * N) : ℕ) : ℝ) = (q.den : ℝ) * (t : ℝ) := by
      exact_mod_cast congrArg (fun z : ℤ => (z : ℝ)) ht
    rw [hnum, ht']
    push_cast
    field_simp
    ring
  have hsplit : (Nat.factorial (2 * N) : ℝ) * (Real.cos 1 - A)
      = ((t * q.num - zA : ℤ) : ℝ) := by
    push_cast
    rw [mul_sub, hAint, hCint]
    push_cast
    ring
  have hw0 : ((t * q.num - zA : ℤ) : ℝ) ≠ 0 := by
    rw [← hsplit]
    have hfne : (Nat.factorial (2 * N) : ℝ) ≠ 0 := by positivity
    exact mul_ne_zero hfne hTne
  have hwlt : |((t * q.num - zA : ℤ) : ℝ)| < 1 := by
    rw [← hsplit, abs_mul,
      abs_of_nonneg (by positivity : (0 : ℝ) ≤ (Nat.factorial (2 * N) : ℝ))]
    have hb : (Nat.factorial (2 * N) : ℝ) * |Real.cos 1 - A|
        ≤ (Nat.factorial (2 * N) : ℝ) * (2 / Nat.factorial (2 * (N + 1))) :=
      mul_le_mul_of_nonneg_left hTbound (by positivity)
    apply lt_of_le_of_lt hb
    rw [mul_div_assoc', div_lt_one (by positivity)]
    have hnat : Nat.factorial (2 * N) * 2 < Nat.factorial (2 * (N + 1)) := by
      have h1 : 2 * (N + 1) = 2 * N + 1 + 1 := by ring
      rw [h1, Nat.factorial_succ, Nat.factorial_succ]
      have hF : 1 ≤ Nat.factorial (2 * N) := Nat.factorial_pos _
      have hstep : 4 * (3 * Nat.factorial (2 * N))
          ≤ (2 * N + 1 + 1) * ((2 * N + 1) * Nat.factorial (2 * N)) :=
        Nat.mul_le_mul (by omega) (Nat.mul_le_mul (by omega) (le_refl _))
      linarith
    exact_mod_cast hnat
  have hwint : t * q.num - zA ≠ 0 := by
    intro h
    rw [h] at hw0
    simp at hw0
  have habs := Int.one_le_abs hwint
  have hcast : (1 : ℝ) ≤ |((t * q.num - zA : ℤ) : ℝ)| := by
    rw [← Int.cast_abs]
    exact_mod_cast habs
  linarith

/-! ### Helper lemmas: distinct integer states give distinct draw streams -/

lemma cos_three_term (x : ℝ) :
    Real.cos (x - 1) + Real.cos (x + 1) = 2 * Real.cos x * Real.cos 1 := by
  rw [Real.cos_sub, Real.cos_add]
  ring

lemma not_cos_eq_zero_succ (x : ℝ) (h0 : Real.cos x = 0)
    (h1 : Real.cos (x + 1) = 0) : False := by
  rw [Real.cos_eq_zero_iff] at h0 h1
  obtain ⟨j, hj⟩ := h0
  obtain ⟨j', hj'⟩ := h1
  have hpi : ((j' : ℝ) - (j : ℝ)) * Real.pi = 1 := by
    have e1 : ((j' : ℝ) - (j : ℝ)) * Real.pi
        = (2 * (j' : ℝ) + 1) * Real.pi / 2 - (2 * (j : ℝ) + 1) * Real.pi / 2 := by
      ring
    rw [e1, ← hj', ← hj]
    ring
  have hjj : (j' : ℝ) - (j : ℝ) ≠ 0 := by
    intro h
    rw [h, zero_mul] at hpi
    norm_num at hpi
  apply irrational_pi
  refine ⟨1 / ((j' - j : ℤ) : ℚ), ?_⟩
  have hcast : (((j' - j : ℤ) : ℚ) : ℝ) = (j' : ℝ) - (j : ℝ) := by
    push_cast
    ring
  rw [Rat.cast_div, Rat.cast_one, hcast, eq_comm, eq_div_iff hjj, mul_comm]
  exact hpi

lemma no_int_cos_seq (C θ : ℝ) (hC : C ≠ 0) (a : ℕ → ℤ)
    (ha : ∀ k : ℕ, (a k : ℝ) = C * Real.cos (θ + k)) : False := by
  have hid : ∀ k : ℕ,
      (a k : ℝ) + (a (k + 2) : ℝ) = 2 * Real.cos 1 * (a (k + 1) : ℝ) := by
    intro k
    have h0 := ha k
    have h1 := ha (k + 1)
    have h2 := ha (k + 2)
    push_cast at h0 h1 h2
    have e1 : θ + ((k : ℝ) + 1) = θ + (k : ℝ) + 1 := by ring
    have e2 : θ + ((k : ℝ) + 2) = θ + (k : ℝ) + 1 + 1 := by ring
    rw [e1] at h1
    rw [e2] at h2
    rw [h0, h1, h2]
    have e := cos_three_term (θ + (k : ℝ) + 1)
    have e3 : θ + (k : ℝ) + 1 - 1 = θ + (k : ℝ) := by ring
    rw [e3] at e
    linear_combination C * e
  have hzero : ∀ k : ℕ, a k = 0 → Real.cos (θ + (k : ℝ)) = 0 := by
    intro k hk
    have h := ha k
    rw [hk] at h
    push_cast at h
    rcases mul_eq_zero.mp h.symm with h | h
    · exact absurd h hC
    · exact h
  have key : ∀ k₀ : ℕ, a (k₀ + 1) ≠ 0 → False := by
    intro k₀ hk
    apply irrational_cos_one
    refine ⟨((a k₀ + a (k₀ + 2) : ℤ) : ℚ) / ((2 * a (k₀ + 1) : ℤ) : ℚ), ?_⟩
    have hz : ((2 * a (k₀ + 1) : ℤ) : ℝ) ≠ 0 := by
      exact_mod_cast mul_ne_zero (two_ne_zero) hk
    rw [Rat.cast_div]
    push_cast
    push_cast at hz
    rw [div_eq_iff hz]
    linear_combination hid k₀
  by_cases h1 : a 1 = 0
  · apply key 1
    intro h2
    have hc1 := hzero 1 h1
    have hc2 := hzero 2 h2
    push_cast at hc1 hc2
    have e : θ + 1 + 1 = θ + 2 := by ring
    exact not_cos_eq_zero_succ (θ + 1) hc1 (by rw [e]; exact hc2)
  · exact key 0 h1

lemma sin_diff (x d k : ℝ) :
    Real.sin (x + d + k) - Real.sin (x - d + k)
      = 2 * Real.cos (x + k) * Real.sin d := by
  rw [show x + d + k = x + k + d by ring, show x - d + k = x + k - d by ring,
    Real.sin_add, Real.sin_sub]
  ring

lemma sin_half_ne_zero (m n : ℕ) (hmn : m ≠ n) :
    Real.sin (((m : ℝ) - n) / 2) ≠ 0 := by
  intro h
  rw [Real.sin_eq_zero_iff] at h
  obtain ⟨j, hj⟩ := h
  have hmn' : (m : ℝ) ≠ n := by
    exact_mod_cast fun h0 => hmn (by exact_mod_cast h0)
  have hd : ((m : ℝ) - n) / 2 ≠ 0 := by
    intro h0
    apply hmn'
    field_simp at h0
    linarith
  have hj0 : (j : ℝ) ≠ 0 := by
    intro h0
    rw [h0, zero_mul] at hj
    exact hd hj.symm
  apply irrational_pi
  refine ⟨((m : ℚ) - n) / (2 * (j : ℚ)), ?_⟩
  rw [Rat.cast_div]
  push_cast
  rw [div_eq_iff (by exact mul_ne_zero two_ne_zero hj0)]
  linear_combination (-2 : ℝ) * hj

lemma fract_draw_ne (m n : ℕ) (hmn : m ≠ n) :
    ∃ k : ℕ, Int.fract ((Real.sin ((m : ℝ) + k) + 1) / 2 * 10000)
      ≠ Int.fract ((Real.sin ((n : ℝ) + k) + 1) / 2 * 10000) := by
  by_contra hall
  push_neg at hall
  set θ : ℝ := ((m : ℝ) + n) / 2 with hθ
  set d : ℝ := ((m : ℝ) - n) / 2 with hd
  set C : ℝ := 10000 * Real.sin d with hC
  have hCne : C ≠ 0 := mul_ne_zero (by norm_num) (sin_half_ne_zero m n hmn)
  have hz : ∀ k : ℕ, ∃ z : ℤ, (z : ℝ) = C * Real.cos (θ + k) := by
    intro k
    obtain ⟨z, hzk⟩ := Int.fract_eq_fract.mp (hall k)
    refine ⟨z, ?_⟩
    rw [← hzk]
    have hm : (m : ℝ) + k = θ + d + k := by rw [hθ, hd]; ring
    have hn : (n : ℝ) + k = θ - d + k := by rw [hθ, hd]; ring
    rw [hm, hn, hC]
    linear_combination (5000 : ℝ) * sin_diff θ d k
  choose a ha using hz
  exact no_int_cos_seq C θ hCne a ha

lemma step_iterate (x : ℝ) : ∀ k : ℕ, (Seed.step)^[k] (⟨x⟩ : Seed) = ⟨x + k⟩
  | 0 => by simp
  | k + 1 => by
    rw [Function.iterate_succ_apply, show Seed.step (⟨x⟩ : Seed) = ⟨x + 1⟩ from rfl,
      step_iterate (x + 1) k]
    congr 1
    push_cast
    ring

lemma drawSeq_fract (x : ℝ) (k : ℕ) :
    drawSeq ⟨x⟩ k = Int.fract ((Real.sin (x + k) + 1) / 2 * 10000) := by
  unfold drawSeq
  rw [step_iterate]
  exact rand_eq_fract ⟨x + k⟩

lemma drawSeq_ne_of_state_ne (m n : ℕ) (hmn : m ≠ n) :
    ∃ k : ℕ, drawSeq ⟨(m : ℝ)⟩ k ≠ drawSeq ⟨(n : ℝ)⟩ k := by
  obtain ⟨k, hk⟩ := fract_draw_ne m n hmn
  refine ⟨k, ?_⟩
  rw [drawSeq_fract, drawSeq_fract]
  exact hk

/-! ### Claim theorems -/

/-- C1: `Classic::create_icon` is a deterministic function of the seed and
the configuration: two independent calls with identical configuration and
identical byte seeds produce identical encoded output, with no hidden state
shared across calls. -/
theorem create_icon_deterministic {Err Out : Type} (f : HSL → Color)
    (render : Image → Except Err Out) (cfg₁ cfg₂ : Classic)
    (seed₁ seed₂ : List Nat) (hcfg : cfg₁ = cfg₂) (hseed : seed₁ = seed₂) :
    create_icon f render cfg₁ seed₁ = create_icon f render cfg₂ seed₂ := by
  rw [hcfg, hseed]

/-- Witness for C1 at the default configuration and the seed `[0, 120]`. -/
theorem create_icon_deterministic_witness :
    Classic.default = Classic.default ∧ ([0, 120] : List Nat) = [0, 120] ∧
      create_icon (fun _ => WHITE) (fun i => (Except.ok i : Except Unit Image))
          Classic.default [0, 120]
        = create_icon (fun _ => WHITE) (fun i => (Except.ok i : Except Unit Image))
          Classic.default [0, 120] :=
  ⟨rfl, rfl, create_icon_deterministic _ _ _ _ _ _ rfl rfl⟩

/-- C2: one call to `Seed::rand` returns exactly the fractional part of
`((sin state + 1) / 2) * 10000`, that value lies in `[0, 1)`, and the only
state change is incrementing the state by exactly 1. -/
theorem rand_spec (s : Seed) :
    s.rand.1 = Int.fract ((Real.sin s.randseed + 1) / 2 * 10000)
      ∧ 0 ≤ s.rand.1 ∧ s.rand.1 < 1
      ∧ s.rand.2.randseed = s.randseed + 1 :=
  ⟨rand_eq_fract s, rand_nonneg s, rand_lt_one s, rfl⟩

/-- C3: `Seed::new` computes the XOR-accumulation over consecutive two-byte
big-endian chunks, with an odd trailing byte folded in shifted left 8 bits,
and the empty seed yields state exactly 0. -/
theorem seed_new_chunks (seed : List Nat) :
    seedInitNat seed = seedChunks seed
      ∧ Seed.new seed = ⟨(seedChunks seed : ℝ)⟩
      ∧ seedInitNat ([] : List Nat) = 0 := by
  refine ⟨seedInitNat_eq_chunks seed, ?_, by decide⟩
  unfold Seed.new
  rw [seedInitNat_eq_chunks]

/-- C4: the generated boolean grid is left-right mirror symmetric: for every
row `r` and column `c` within the effective width, entry `(r, c)` equals
entry `(r, width - 1 - c)`. -/
theorem grid_mirror (s : Seed) (size r c : Nat)
    (hr : r < size) (hc : c < effWidth size) :
    ((create_image_data randBool size s).1.getD r []).getD c false
      = ((create_image_data randBool size s).1.getD r []).getD
          (effWidth size - 1 - c) false := by
  have hw : effWidth size % 2 = 0 := by unfold effWidth; omega
  have hlen : (create_image_data randBool size s).1.length = size :=
    mkRows_length randBool (effWidth size) size s
  have hmem : (create_image_data randBool size s).1.getD r []
      ∈ (create_image_data randBool size s).1 := by
    rw [List.getD_eq_getElem _ [] (by omega)]
    exact List.getElem_mem _
  obtain ⟨hpal, hrow⟩ :=
    mkRows_mem randBool (effWidth size) hw size s _ hmem
  have := palindrome_getD _ hpal c (by omega)
  rwa [hrow] at this

/-- Witness for C4 at seed `[]`, size 8, row 0, column 2. -/
theorem grid_mirror_witness :
    0 < 8 ∧ 2 < effWidth 8 ∧
      ((create_image_data randBool 8 (Seed.new [])).1.getD 0 []).getD 2 false
        = ((create_image_data randBool 8 (Seed.new [])).1.getD 0 []).getD
            (effWidth 8 - 1 - 2) false :=
  ⟨by decide, by decide, grid_mirror (Seed.new []) 8 0 2 (by decide) (by decide)⟩

/-- C5: the image handed to the renderer has width `size + size % 2`
(`size` rounded up to the next even number) while the grid height is the
original `size`; in particular size 7 yields effective width 8 and size 8
yields effective width 8. -/
theorem width_widening {Err : Type} (f : HSL → Color) (cfg : Classic)
    (seed : List Nat) :
    (∃ img : Image,
        create_icon f (Except.ok : Image → Except Err Image) cfg seed
            = Except.ok img
          ∧ img.width = cfg.size + cfg.size % 2
          ∧ img.pixels.length = cfg.size * effWidth cfg.size)
      ∧ (∀ s : Seed,
          (create_image_data randBool cfg.size s).1.length = cfg.size)
      ∧ effWidth 7 = 8 ∧ effWidth 8 = 8 := by
  have hw : effWidth cfg.size % 2 = 0 := by unfold effWidth; omega
  refine ⟨⟨_, rfl, rfl, ?_⟩, fun s => mkRows_length _ _ _ _, by decide, by decide⟩
  exact toPixels_mkRows_length randBool (effWidth cfg.size) hw cfg.size _

/-- C6: `Seed::create_color` performs exactly three draws in the fixed
order hue, saturation, lightness, with hue `⌊draw * 360⌋ ∈ [0, 360)`,
saturation `(draw * 50 + 50) / 100 ∈ [0.5, 1]`, lightness
`(draw * 60 + 20) / 100 ∈ [0.2, 0.8]`, and returns the HSL→RGB conversion
of that triple, leaving the state advanced by exactly three draws. -/
theorem create_color_spec (f : HSL → Color) (s : Seed) :
    s.create_color f
        = (f ⟨(⌊drawSeq s 0 * 360⌋ : ℝ), (drawSeq s 1 * 50 + 50) / 100,
              (drawSeq s 2 * 60 + 20) / 100⟩,
           ⟨s.randseed + 3⟩)
      ∧ (0 : ℝ) ≤ (⌊drawSeq s 0 * 360⌋ : ℝ)
      ∧ (⌊drawSeq s 0 * 360⌋ : ℝ) < 360
      ∧ (0.5 : ℝ) ≤ (drawSeq s 1 * 50 + 50) / 100
      ∧ (drawSeq s 1 * 50 + 50) / 100 ≤ 1
      ∧ (0.2 : ℝ) ≤ (drawSeq s 2 * 60 + 20) / 100
      ∧ (drawSeq s 2 * 60 + 20) / 100 ≤ 0.8 := by
  have h0 : drawSeq s 0 = s.rand.1 := rfl
  have h1 : drawSeq s 1 = s.rand.2.rand.1 := by
    rw [drawSeq_succ, drawSeq_zero]
  have h2 : drawSeq s 2 = s.rand.2.rand.2.rand.1 := by
    rw [drawSeq_succ, drawSeq_succ, drawSeq_zero]
  refine ⟨?_, ?_, ?_, ?_, ?_, ?_, ?_⟩
  · show (f ⟨_, _, _⟩, s.rand.2.rand.2.rand.2) = _
    rw [h0, h1, h2]
    have hst : s.rand.2.rand.2.rand.2 = (⟨s.randseed + 3⟩ : Seed) :=
      create_color_state f s
    rw [hst]
  · have := drawSeq_nonneg s 0
    have hnn : (0 : ℝ) ≤ drawSeq s 0 * 360 := by linarith
    exact_mod_cast Int.floor_nonneg.mpr hnn
  · have hlt : drawSeq s 0 * 360 < 360 := by
      have := drawSeq_lt_one s 0
      nlinarith
    calc (⌊drawSeq s 0 * 360⌋ : ℝ) ≤ drawSeq s 0 * 360 := Int.floor_le _
      _ < 360 := hlt
  · have := drawSeq_nonneg s 1
    have h05 : (0.5 : ℝ) = 50 / 100 := by norm_num
    rw [h05]
    apply div_le_div_of_nonneg_right ?_ (by norm_num)
    linarith
  · have := drawSeq_lt_one s 1
    have h1' : (1 : ℝ) = 100 / 100 := by norm_num
    rw [h1']
    apply div_le_div_of_nonneg_right ?_ (by norm_num)
    linarith
  · have := drawSeq_nonneg s 2
    have h02 : (0.2 : ℝ) = 20 / 100 := by norm_num
    rw [h02]
    apply div_le_div_of_nonneg_right ?_ (by norm_num)
    linarith
  · have := drawSeq_lt_one s 2
    have h08 : (0.8 : ℝ) = 80 / 100 := by norm_num
    rw [h08]
    apply div_le_div_of_nonneg_right ?_ (by norm_num)
    linarith

/-- C7: with a caller-supplied foreground color no draws happen for color
resolution and grid building starts from the initial seed state, whereas
with a derived color the grid draws start only after three color draws. -/
theorem fixed_color_frame {Err Out : Type} (f : HSL → Color)
    (render : Image → Except Err Out) (cfg : Classic) (seed : List Nat)
    (c : Color) (hc : cfg.color = some c) :
    create_icon f render cfg seed
        = render
            { palette := [cfg.background_color.getD WHITE, c]
              pixels :=
                toPixels (create_image_data randBool cfg.size (Seed.new seed)).1
              width := cfg.size + cfg.size % 2
              scale := cfg.scale }
      ∧ create_icon f render { cfg with color := none } seed
          = render
              { palette := [cfg.background_color.getD WHITE,
                  ((Seed.new seed).create_color f).1]
                pixels :=
                  toPixels (create_image_data randBool cfg.size
                    ⟨(Seed.new seed).randseed + 3⟩).1
                width := cfg.size + cfg.size % 2
                scale := cfg.scale } := by
  constructor
  · unfold create_icon
    rw [hc]
  · unfold create_icon
    dsimp only
    rw [create_color_state]

/-- Witness for C7 at a configuration with fixed foreground `⟨1, 2, 3⟩`,
size 8, scale 16, derived background, seed `[]`. -/
theorem fixed_color_frame_witness :
    (Classic.mk 8 16 (some ⟨1, 2, 3⟩) none).color = some ⟨1, 2, 3⟩
      ∧ (create_icon (fun _ => WHITE)
            (fun i => (Except.ok i : Except Unit Image))
            (Classic.mk 8 16 (some ⟨1, 2, 3⟩) none) []
          = Except.ok
              { palette := [WHITE, ⟨1, 2, 3⟩]
                pixels :=
                  toPixels (create_image_data randBool 8 (Seed.new [])).1
                width := 8 + 8 % 2
                scale := 16 }
        ∧ create_icon (fun _ => WHITE)
            (fun i => (Except.ok i : Except Unit Image))
            { Classic.mk 8 16 (some ⟨1, 2, 3⟩) none with color := none } []
          = Except.ok
              { palette := [WHITE,
                  ((Seed.new []).create_color (fun _ => WHITE)).1]
                pixels :=
                  toPixels (create_image_data randBool 8
                    ⟨(Seed.new []).randseed + 3⟩).1
                width := 8 + 8 % 2
                scale := 16 }) :=
  ⟨rfl,
    fixed_color_frame (fun _ => WHITE)
      (fun i => (Except.ok i : Except Unit Image))
      (Classic.mk 8 16 (some ⟨1, 2, 3⟩) none) [] ⟨1, 2, 3⟩ rfl⟩

/-- C8 counterexample: the empty seed has even length, yet appending the
single extra trailing byte 0 leaves the generator state — and with it every
draw of the sequence — unchanged, because the odd-length branch XORs in
`0 <<< 8 = 0`. -/
theorem seed_append_zero_byte_same_draws :
    ([] : List Nat).length % 2 = 0
      ∧ drawSeq (Seed.new ([] ++ [0])) = drawSeq (Seed.new []) := by
  refine ⟨rfl, ?_⟩
  have h : Seed.new ([] ++ [0]) = Seed.new [] := by
    show (⟨(seedInitNat ([] ++ [0]) : ℝ)⟩ : Seed) = ⟨(seedInitNat [] : ℝ)⟩
    rw [show seedInitNat ([] ++ [0]) = seedInitNat [] from by decide]
  rw [h]

/-- C8 amended: appending one NONZERO extra trailing byte to an even-length
seed XORs `b <<< 8` into the accumulator, changing the initial generator
state, and the resulting draw sequence differs from the original seed's in
at least one derived draw (with a zero trailing byte the state, and hence
the whole draw sequence, is unchanged). -/
theorem seed_append_nonzero_byte (seed : List Nat) (b : Nat)
    (heven : seed.length % 2 = 0) (hb : b ≠ 0) :
    ∃ k : ℕ, drawSeq (Seed.new (seed ++ [b])) k ≠ drawSeq (Seed.new seed) k := by
  have hx : seedInitNat (seed ++ [b]) = seedInitNat seed ^^^ (b <<< 8) := by
    rw [seedInitNat_eq_chunks, seedInitNat_eq_chunks,
      seedChunks_append_even b seed heven]
  have hne : seedInitNat (seed ++ [b]) ≠ seedInitNat seed := by
    rw [hx]
    exact xor_shift_ne _ b hb
  exact drawSeq_ne_of_state_ne _ _ hne

/-- Witness for the amended C8 at seed `[1, 2]` and extra byte 3. -/
theorem seed_append_nonzero_byte_witness :
    ([1, 2] : List Nat).length % 2 = 0 ∧ (3 : Nat) ≠ 0
      ∧ ∃ k : ℕ,
          drawSeq (Seed.new ([1, 2] ++ [3])) k ≠ drawSeq (Seed.new [1, 2]) k :=
  ⟨rfl, by decide, seed_append_nonzero_byte [1, 2] 3 rfl (by decide)⟩

/-- C9: `create_icon` is total over the core pipeline: for every seed and
configuration its result is exactly the renderer applied to the fully
assembled image — a two-entry palette and a complete `size × width` pixel
index buffer — so any error is the renderer's, propagated unchanged, and
the renderer is invoked only with the completely built buffer. -/
theorem create_icon_render {Err Out : Type} (f : HSL → Color)
    (render : Image → Except Err Out) (cfg : Classic) (seed : List Nat) :
    ∃ img : Image,
      create_icon f render cfg seed = render img
        ∧ img.palette.length = 2
        ∧ img.pixels.length = cfg.size * effWidth cfg.size
        ∧ img.width = effWidth cfg.size := by
  have hw : effWidth cfg.size % 2 = 0 := by unfold effWidth; omega
  refine ⟨_, rfl, rfl, ?_, rfl⟩
  exact toPixels_mkRows_length randBool (effWidth cfg.size) hw cfg.size _

/-- C10: for every byte seed (all members below 256) the accumulator built
by `Seed::new` is strictly below `2 ^ 16`, so the generator state always
starts in `[0, 65535]`. -/
theorem seed_state_bound (seed : List Nat) (hbytes : ∀ b ∈ seed, b < 256) :
    seedInitNat seed < 65536
      ∧ (0 : ℝ) ≤ (Seed.new seed).randseed
      ∧ (Seed.new seed).randseed < 65536 := by
  have h : seedInitNat seed < 2 ^ 16 := by
    rw [seedInitNat_eq_chunks]
    exact seedChunks_lt seed hbytes
  have h' : seedInitNat seed < 65536 := by norm_num at h; exact h
  refine ⟨h', ?_, ?_⟩
  · exact Nat.cast_nonneg _
  · show ((seedInitNat seed : ℝ)) < 65536
    exact_mod_cast h'

/-- Witness for C10 at the seed `[0, 255, 7]`. -/
theorem seed_state_bound_witness :
    (∀ b ∈ ([0, 255, 7] : List Nat), b < 256)
      ∧ (seedInitNat [0, 255, 7] < 65536
          ∧ (0 : ℝ) ≤ (Seed.new [0, 255, 7]).randseed
          ∧ (Seed.new [0, 255, 7]).randseed < 65536) :=
  ⟨by decide, seed_state_bound [0, 255, 7] (by decide)⟩

end Blockies
